import Mathlib

/-!
Shallow embedding of the NeuroPAL Lens viewer core (`src/app.rs`).

Machine floats (`f32`/`f64`) are embedded as `ℚ`; the decimal literals of the
source (`0.35`, `1.5`, `-0.01`, `0.2126`, …) are taken at their exact rational
value.  Rust's saturating float-to-`u8` cast (`as u8`) is truncation toward
zero after clamping to `[0, 255]`, which on the clamped nonnegative range is
`Int.floor`.  The square-root comparison `l2_dist(..) < t` of the source is
embedded as the equivalent squared comparison `l2distSq .. < t^2` (for `t > 0`
both sides of `sqrt s < t` are nonnegative, so the comparison squares).
-/

/-- Rust `x.clamp(lo, hi)` on floats (for `lo ≤ hi`). -/
def clampQ (x lo hi : ℚ) : ℚ := min hi (max lo x)

/-- Rust saturating float-to-`u8` cast: values below 0 go to 0, above 255 to
255, otherwise truncate (floor on the nonnegative range). -/
def f32ToU8 (x : ℚ) : ℕ := (⌊min 255 (max 0 x)⌋).toNat

/-- The point record of `src/app.rs` (`struct Neuron`): a name, a 3D position
and a normalized RGB color. -/
structure Neuron where
  name : String
  x : ℚ
  y : ℚ
  z : ℚ
  r : ℚ
  g : ℚ
  b : ℚ
deriving DecidableEq, Repr

/-- `Neuron::rgb`: each channel is `(c * 255.).clamp(0., 255.) as u8`. -/
def Neuron.rgb (n : Neuron) : ℕ × ℕ × ℕ :=
  ((⌊clampQ (n.r * 255) 0 255⌋).toNat,
   (⌊clampQ (n.g * 255) 0 255⌋).toNat,
   (⌊clampQ (n.b * 255) 0 255⌋).toNat)

/-- `Neuron::luminance`: `0.2126 * r + 0.7152 * g + 0.0722 * b`. -/
def Neuron.luminance (n : Neuron) : ℚ :=
  0.2126 * n.r + 0.7152 * n.g + 0.0722 * n.b

/-- The squared Euclidean distance underlying `l2_dist` of the source
(`l2_dist` itself returns the square root of this quantity). -/
def l2distSq (x1 x2 y1 y2 : ℚ) : ℚ := (x1 - x2) ^ 2 + (y1 - y2) ^ 2

/-- Embedding of `l2_dist(x1, x2, y1, y2) < t` for a threshold `t > 0`:
`sqrt s < t ↔ s < t^2` since both sides are nonnegative. -/
def distLt (x1 x2 y1 y2 t : ℚ) : Bool := decide (l2distSq x1 x2 y1 y2 < t ^ 2)

/-- The tri-state hemisphere selector (`enum WormSide`). -/
inductive WormSide where
  | Left
  | Right
  | Both
deriving DecidableEq, Repr

/-- `WormSide::next`: cycles Left → Right → Both → Left. -/
def WormSide.next : WormSide → WormSide
  | .Left => .Right
  | .Right => .Both
  | .Both => .Left

/-- The hemisphere test of `MyApp::update`: Left passes `z >= 0`, Right passes
`z < 0`, Both passes all. -/
def sidePasses (side : WormSide) (n : Neuron) : Bool :=
  match side with
  | .Left => decide (0 ≤ n.z)
  | .Right => decide (n.z < 0)
  | .Both => true

/-- The delimiter set of the query tokenizer:
`split(&[' ', ';', ',', '\t'])`. -/
def isDelim (c : Char) : Bool := c = ' ' || c = ';' || c = ',' || c = '\t'

/-- Rust `str::split` over a character list: the pieces between delimiter
occurrences, keeping empty pieces (so `n` delimiters yield `n + 1` pieces). -/
def splitChars : List Char → List (List Char)
  | [] => [[]]
  | c :: cs =>
    if isDelim c then [] :: splitChars cs
    else
      match splitChars cs with
      | [] => [[c]]
      | t :: ts => (c :: t) :: ts

/-- Query tokenization of `MyApp::update`: split on space, semicolon, comma
and tab, discard empty tokens. -/
def tokenize (query : String) : List String :=
  ((splitChars query.toList).filter fun cs => !cs.isEmpty).map
    fun cs => String.mk cs

/-- Rust `str::starts_with(pat)`: `pat` is a byte prefix of `name`, which for
valid UTF-8 strings is the same as a character-list prefix. -/
def startsWithPat (name pat : String) : Bool :=
  pat.toList.isPrefixOf name.toList

/-- The name filter of `MyApp::update`: some token is `"*"` or a (byte-exact,
case-sensitive) prefix of the name. -/
def nameMatches (query name : String) : Bool :=
  (tokenize query).any fun pat => pat == "*" || startsWithPat name pat

/-- The visible set of `MyApp::update`: filter the store's values by the name
filter, then by the hemisphere test, then sort by name ascending
(`sort_unstable_by_key(|x| &x.name)`).  The store is a `HashMap` iterated in
arbitrary order, so it is modelled as a list in arbitrary order. -/
def visibleSet (store : List Neuron) (query : String) (side : WormSide) :
    List Neuron :=
  (((store.filter fun n => nameMatches query n.name).filter
      fun n => sidePasses side n).mergeSort
    fun a b => decide (a.name ≤ b.name))

/-- Marker radius used by all three plots: `(scale * -0.01 + 6.).clamp(1.0, 6.)`
where `scale` is the plot's current horizontal span. -/
def radiusOf (span : ℚ) : ℚ := clampQ (span * (-0.01) + 6) 1 6

/-- A plot-marker color: the RGB triple selected by the source, together with
whether the host library then dims it (`gamma_multiply(0.8)` for `z < 0`). -/
structure MarkerColor where
  base : ℕ × ℕ × ℕ
  dimmed : Bool
deriving DecidableEq, Repr

/-- Marker color selection shared by the three plots: pure black becomes white
only when the dark theme is active; `z < 0` marks the depth dimming. -/
def markerColor (isDark : Bool) (n : Neuron) : MarkerColor :=
  { base :=
      if n.rgb = (0, 0, 0) ∧ isDark = true then (255, 255, 255) else n.rgb,
    dimmed := decide (n.z < 0) }

/-- The list-row background of `huge_content_painter`: each channel is
`(c * 255.) as u8` (saturating cast, no explicit clamp), and pure black is
replaced by pure white. -/
def rowBg (n : Neuron) : ℕ × ℕ × ℕ :=
  let r := f32ToU8 (n.r * 255)
  let g := f32ToU8 (n.g * 255)
  let b := f32ToU8 (n.b * 255)
  if r = 0 ∧ g = 0 ∧ b = 0 then (255, 255, 255) else (r, g, b)

/-- The list-row text color of `huge_content_painter`: black if the luminance
is 0 or above 0.5, else white (`true` encodes black here). -/
def rowTextIsBlack (n : Neuron) : Bool :=
  decide (n.luminance = 0 ∨ n.luminance > 0.5)

/-- Abstract draw commands emitted by the plotting code: reference lines,
filled markers, unfilled outline markers, and text labels, all in data
coordinates. -/
inductive DrawCmd where
  | hline (y : ℚ)
  | vline (x : ℚ)
  | marker (p : ℚ × ℚ) (color : MarkerColor) (radius : ℚ)
  | outline (p : ℚ × ℚ) (radius : ℚ)
  | label (p : ℚ × ℚ) (text : String)
deriving DecidableEq, Repr

/-- The primary (x-y) plot body of `worm_canvas`: one plain marker per visible
neuron, radius from the plot's own horizontal span. -/
def primaryView (isDark : Bool) (span : ℚ) (data : List Neuron) :
    List DrawCmd :=
  data.map fun n => DrawCmd.marker (n.x, n.y) (markerColor isDark n) (radiusOf span)

/-- The skip test of the anterior (z-y) view: with hover, skip when
`x < pos.x - 1.5 || x > pos.x + 1.5`; without hover the bounds are the
`f64::MIN`/`f64::MAX` sentinels, so no finite `x` is skipped. -/
def yzSkip (hover : Option (ℚ × ℚ)) (n : Neuron) : Bool :=
  match hover with
  | none => false
  | some p => decide (n.x < p.1 - 1.5) || decide (n.x > p.1 + 1.5)

/-- The highlight test shared by both auxiliary views:
`pos.is_some_and(|pos| l2_dist(x, pos.x, y, pos.y) < 0.35)`. -/
def hoverNear (hover : Option (ℚ × ℚ)) (n : Neuron) : Bool :=
  match hover with
  | none => false
  | some p => distLt n.x p.1 n.y p.2 0.35

/-- Per-neuron drawing of the anterior (z-y) view: a plain marker at `(z, y)`
unless skipped; when the highlight test passes, additionally a vertical
reference line at `z`, an unfilled outline of radius `radius + 2`, and a name
label offset by `radius / 1.5`. -/
def yzDrawNeuron (isDark : Bool) (hover : Option (ℚ × ℚ)) (radius : ℚ)
    (n : Neuron) : List DrawCmd :=
  if yzSkip hover n then []
  else
    DrawCmd.marker (n.z, n.y) (markerColor isDark n) radius ::
      (if hoverNear hover n then
        [DrawCmd.vline n.z,
         DrawCmd.outline (n.z, n.y) (radius + 2),
         DrawCmd.label (n.z + radius / 1.5, n.y + radius / 1.5) n.name]
      else [])

/-- The anterior (z-y) view body of `worm_canvas`: a horizontal reference line
at the hovered `y` when hover is present, then the per-neuron drawing. -/
def yzView (isDark : Bool) (hover : Option (ℚ × ℚ)) (span : ℚ)
    (data : List Neuron) : List DrawCmd :=
  (match hover with
   | none => []
   | some p => [DrawCmd.hline p.2]) ++
    data.flatMap (yzDrawNeuron isDark hover (radiusOf span))

/-- The skip test of the dorsal (x-z) view: the `y` slab applies only with
hover (sentinel bounds otherwise), but the `x` test against the primary view's
horizontal bounds applies always. -/
def xzSkip (hover : Option (ℚ × ℚ)) (xBound : ℚ × ℚ) (n : Neuron) : Bool :=
  (match hover with
   | none => false
   | some p => decide (n.y < p.2 - 1.5) || decide (n.y > p.2 + 1.5)) ||
    decide (n.x < xBound.1) || decide (n.x > xBound.2)

/-- Per-neuron drawing of the dorsal (x-z) view: a plain marker at `(x, -z)`
unless skipped; when the highlight test passes, additionally a horizontal
reference line at `-z`, an unfilled outline of radius `radius + 2`, and a name
label offset by `radius / 1.5`. -/
def xzDrawNeuron (isDark : Bool) (hover : Option (ℚ × ℚ)) (xBound : ℚ × ℚ)
    (radius : ℚ) (n : Neuron) : List DrawCmd :=
  if xzSkip hover xBound n then []
  else
    DrawCmd.marker (n.x, -n.z) (markerColor isDark n) radius ::
      (if hoverNear hover n then
        [DrawCmd.hline (-n.z),
         DrawCmd.outline (n.x, -n.z) (radius + 2),
         DrawCmd.label (n.x + radius / 1.5, -n.z + radius / 1.5) n.name]
      else [])

/-- The dorsal (x-z) view body of `worm_canvas`: a vertical reference line at
the hovered `x` when hover is present, then the per-neuron drawing. -/
def xzView (isDark : Bool) (hover : Option (ℚ × ℚ)) (xBound : ℚ × ℚ)
    (span : ℚ) (data : List Neuron) : List DrawCmd :=
  (match hover with
   | none => []
   | some p => [DrawCmd.vline p.1]) ++
    data.flatMap (xzDrawNeuron isDark hover xBound (radiusOf span))

/-- The drawn row indices of `huge_content_painter`:
`first = (min.y / h).floor().at_least(0.0) as usize` and
`last = min(((max.y / h).ceil() as usize) + 1, total)`; rows `first..last`
are drawn.  The float-to-`usize` casts saturate at 0. -/
def drawnRows (vmin vmax h : ℚ) (total : ℕ) : Finset ℕ :=
  Finset.Ico ((max 0 ⌊vmin / h⌋).toNat) (min ((⌈vmax / h⌉).toNat + 1) total)

/-- Modelled from the spec's words (for comparison with `drawnRows`): the
claimed drawn range `[max(0, floor(min/h)), min(total, ceil(max/h) + 1))` as a
set of integers. -/
def specRows (vmin vmax h : ℚ) (total : ℕ) : Finset ℤ :=
  Finset.Ico (max 0 ⌊vmin / h⌋) (min (total : ℤ) (⌈vmax / h⌉ + 1))

/-- The reserved scroll height of `huge_content_painter`:
`ui.set_height(row_height * num_rows)`. -/
def reservedHeight (h : ℚ) (total : ℕ) : ℚ := h * total

/-- Modelled from the spec's words (for comparison with `Neuron.rgb`): the
claimed channel derivation `round(clamp(c, 0, 1) * 255)`. -/
def rgbSpecChannel (c : ℚ) : ℤ := round (clampQ c 0 1 * 255)

/-- Sample point from the spec's example scenario (`AVAL`, `z = 3`). -/
def nAVAL : Neuron := ⟨"AVAL", 1, 2, 3, 1, 0, 0⟩

/-- Sample point from the spec's example scenario (`AVAR`, `z = -3`). -/
def nAVAR : Neuron := ⟨"AVAR", 1, 2, -3, 0, 1, 0⟩

/-- A pure-black sample point (`r = g = b = 0`, `z = 0`). -/
def nBlack : Neuron := ⟨"BLK", 0, 0, 0, 0, 0, 0⟩

/-- The point of the spec's hover example: position `(1.05, 1.98, 0.5)`. -/
def nHover : Neuron := ⟨"HOV", 21/20, 99/50, 1/2, 1, 0, 0⟩

/-- A sample point lying far to the right (`x = 100`). -/
def nFar : Neuron := ⟨"FAR", 100, 0, 0, 1, 0, 0⟩

/-- A sample point with a channel value (`r = 0.999`) on which truncation and
rounding differ. -/
def nTrunc : Neuron := ⟨"RND", 0, 0, 0, 999/1000, 0, 0⟩

/-- A sample point within hover distance of the origin. -/
def nNear : Neuron := ⟨"NEAR", 1/10, 1/10, -2, 0, 0, 1⟩

/-- C1: the name filter matches exactly when some token is `"*"` or a
case-sensitive prefix of the name; an empty token list matches nothing; and
the query `"*"` passes every stored point through to the visible set subject
only to the hemisphere test. -/
theorem queryMatch_characterization (q : String) (store : List Neuron)
    (side : WormSide) (n : Neuron) :
    (nameMatches q n.name = true ↔
      ∃ pat ∈ tokenize q, pat = "*" ∨ startsWithPat n.name pat = true)
    ∧ (tokenize q = [] → nameMatches q n.name = false)
    ∧ (n ∈ visibleSet store "*" side ↔ n ∈ store ∧ sidePasses side n = true) := by
  have hstar : ∀ m : Neuron, nameMatches "*" m.name = true := fun m => rfl
  refine ⟨?_, ?_, ?_⟩
  · simp [nameMatches, List.any_eq_true, Bool.or_eq_true, beq_iff_eq]
  · intro h
    simp [nameMatches, h]
  · simp only [visibleSet, List.mem_mergeSort, List.mem_filter]
    constructor
    · rintro ⟨⟨hn, _⟩, hs⟩
      exact ⟨hn, hs⟩
    · rintro ⟨hn, hs⟩
      exact ⟨⟨hn, hstar n⟩, hs⟩

/-- Witness for C1: the blank query tokenizes to nothing and matches
nothing. -/
theorem queryMatch_characterization_witness :
    nameMatches "" "AVAL" = false :=
  (queryMatch_characterization "" [] WormSide.Both nAVAL).2.1 rfl

/-- Without hover the anterior per-neuron drawing is exactly one plain
marker. -/
theorem yzDrawNeuron_noHover (isDark : Bool) (rad : ℚ) (n : Neuron) :
    yzDrawNeuron isDark none rad n =
      [DrawCmd.marker (n.z, n.y) (markerColor isDark n) rad] := rfl

/-- Without hover the dorsal per-neuron drawing is one plain marker when the
point passes the primary-bounds test, else nothing. -/
theorem xzDrawNeuron_noHover (isDark : Bool) (xb : ℚ × ℚ) (rad : ℚ)
    (n : Neuron) :
    xzDrawNeuron isDark none xb rad n =
      if xzSkip none xb n then []
      else [DrawCmd.marker (n.x, -n.z) (markerColor isDark n) rad] := by
  unfold xzDrawNeuron
  split <;> simp [hoverNear]

/-- Without hover the anterior view draws exactly the plain markers of the
whole visible set. -/
theorem yzView_noHover (isDark : Bool) (sp : ℚ) (data : List Neuron) :
    yzView isDark none sp data =
      data.map fun n =>
        DrawCmd.marker (n.z, n.y) (markerColor isDark n) (radiusOf sp) := by
  induction data with
  | nil => rfl
  | cons h t ih =>
    simp [yzView, yzDrawNeuron_noHover] at ih ⊢
    exact ih

/-- Without hover the dorsal view draws exactly the plain markers of the
points passing the primary-bounds test. -/
theorem xzView_noHover (isDark : Bool) (xb : ℚ × ℚ) (sp : ℚ)
    (data : List Neuron) :
    xzView isDark none xb sp data =
      (data.filter fun n => !xzSkip none xb n).map fun n =>
        DrawCmd.marker (n.x, -n.z) (markerColor isDark n) (radiusOf sp) := by
  induction data with
  | nil => rfl
  | cons h t ih =>
    by_cases hs : xzSkip none xb h <;>
      simp [yzView, xzView, List.filter_cons, xzDrawNeuron_noHover, hs] at ih ⊢ <;>
      exact ih

/-- C2 counterexample: without hover, the dorsal view still skips a visible
point whose `x` lies outside the primary view's horizontal bounds, so it is
not true that every visible point is drawn in both auxiliary views. -/
theorem dorsal_skips_point_without_hover :
    nFar ∈ [nFar] ∧ xzView false none (0, 10) 30 [nFar] = [] := by
  constructor
  · simp
  · norm_num [xzView, xzDrawNeuron, xzSkip, nFar]

/-- C2 amended: without hover no slab restriction and no reference lines
apply; the anterior view draws every visible point as a plain marker and
nothing else; the dorsal view draws, as plain markers and nothing else,
exactly the visible points whose `x` lies within the primary view's
horizontal bounds (its only remaining restriction). -/
theorem noHover_plain_markers (isDark : Bool) (sp1 sp2 : ℚ) (xb : ℚ × ℚ)
    (data : List Neuron) :
    (yzView isDark none sp1 data =
      data.map fun n =>
        DrawCmd.marker (n.z, n.y) (markerColor isDark n) (radiusOf sp1))
    ∧ (xzView isDark none xb sp2 data =
      (data.filter fun n => !xzSkip none xb n).map fun n =>
        DrawCmd.marker (n.x, -n.z) (markerColor isDark n) (radiusOf sp2))
    ∧ ∀ n : Neuron,
        xzSkip none xb n = (decide (n.x < xb.1) || decide (n.x > xb.2)) := by
  refine ⟨yzView_noHover isDark sp1 data, xzView_noHover isDark xb sp2 data, ?_⟩
  intro n
  simp [xzSkip, Bool.or_assoc]

/-- The list-row background equals the derived 8-bit color with pure black
replaced by pure white (the row path's unclamped cast saturates to the same
channel values as `Neuron.rgb`). -/
theorem rowBg_eq (n : Neuron) :
    rowBg n = if n.rgb = (0, 0, 0) then (255, 255, 255) else n.rgb := by
  have h : n.rgb =
      (f32ToU8 (n.r * 255), f32ToU8 (n.g * 255), f32ToU8 (n.b * 255)) := rfl
  rw [h]
  unfold rowBg
  split_ifs with h1 <;> simp_all [Prod.mk.injEq]

/-- C3 counterexample: under the light theme, the primary plot draws a pure
black point's marker with base color black, not white — the white substitution
for plot markers happens only under the dark theme. -/
theorem blackMarker_black_on_light_theme :
    nBlack.rgb = (0, 0, 0)
    ∧ DrawCmd.marker (nBlack.x, nBlack.y)
        { base := (0, 0, 0), dimmed := false } (radiusOf 30)
        ∈ primaryView false 30 [nBlack]
    ∧ ((0 : ℕ), (0 : ℕ), (0 : ℕ)) ≠ ((255 : ℕ), (255 : ℕ), (255 : ℕ)) := by
  have h : nBlack.rgb = (0, 0, 0) := by
    norm_num [Neuron.rgb, nBlack, clampQ]
  refine ⟨h, ?_, by decide⟩
  norm_num [primaryView, markerColor, Neuron.rgb, clampQ, nBlack]

/-- C3 amended: a pure black point's list-row background is always drawn
pure white; its plot-marker color is substituted with white only when the
dark theme is active (under the light theme the marker stays black, and for
`z < 0` the host further dims the substituted white). -/
theorem blackPoint_white_fallback (n : Neuron) (h : n.rgb = (0, 0, 0)) :
    rowBg n = (255, 255, 255)
    ∧ (markerColor true n).base = (255, 255, 255) := by
  constructor
  · rw [rowBg_eq, if_pos h]
  · simp [markerColor, h]

/-- Witness for C3 amended at the concrete black sample point. -/
theorem blackPoint_white_fallback_witness :
    rowBg nBlack = (255, 255, 255)
    ∧ (markerColor true nBlack).base = (255, 255, 255) :=
  blackPoint_white_fallback nBlack (by norm_num [Neuron.rgb, nBlack, clampQ])

/-- C4 counterexample: at channel value `0.999` the code's derivation
truncates to 254 while the claimed `round(clamp(c,0,1)*255)` gives 255. -/
theorem rgb_truncates_not_rounds :
    nTrunc.rgb.1 = 254
    ∧ rgbSpecChannel nTrunc.r = 255
    ∧ (nTrunc.rgb.1 : ℤ) ≠ rgbSpecChannel nTrunc.r := by
  have h1 : nTrunc.rgb.1 = 254 := by
    have h : clampQ (nTrunc.r * 255) 0 255 = 50949 / 200 := by
      norm_num [nTrunc, clampQ]
    have h2 : ⌊(50949 / 200 : ℚ)⌋ = 254 := by norm_num
    simp [Neuron.rgb, h, h2]
  have h3 : rgbSpecChannel nTrunc.r = 255 := by
    norm_num [rgbSpecChannel, nTrunc, clampQ, round_eq]
  refine ⟨h1, h3, ?_⟩
  rw [h1, h3]
  omega

/-- Clamping after multiplying by 255 agrees with clamping to `[0, 1]` before
multiplying. -/
theorem clampQ_mul255 (c : ℚ) : clampQ (c * 255) 0 255 = clampQ c 0 1 * 255 := by
  unfold clampQ
  rw [min_mul_of_nonneg 1 (max 0 c) (show (0 : ℚ) ≤ 255 by norm_num),
    max_mul_of_nonneg 0 c (show (0 : ℚ) ≤ 255 by norm_num)]
  norm_num

/-- C4 amended: each derived 8-bit channel is the truncation (floor)
`⌊clamp(c, 0, 1) * 255⌋`, not the rounding, and the luminance is exactly
`0.2126·r + 0.7152·g + 0.0722·b`. -/
theorem rgb_and_luminance_derivation (n : Neuron) :
    n.rgb = ((⌊clampQ n.r 0 1 * 255⌋).toNat, (⌊clampQ n.g 0 1 * 255⌋).toNat,
      (⌊clampQ n.b 0 1 * 255⌋).toNat)
    ∧ n.luminance = 0.2126 * n.r + 0.7152 * n.g + 0.0722 * n.b := by
  refine ⟨?_, rfl⟩
  simp [Neuron.rgb, clampQ_mul255]

/-- A point passing the 0.35 hover-distance test lies strictly inside the
±1.5-unit slab on both the first and second spatial components. -/
theorem near_within_slab (x hx y hy : ℚ) (h : distLt x hx y hy 0.35 = true) :
    ¬ x < hx - 1.5 ∧ ¬ x > hx + 1.5 ∧ ¬ y < hy - 1.5 ∧ ¬ y > hy + 1.5 := by
  have hd : (x - hx) ^ 2 + (y - hy) ^ 2 < (0.35 : ℚ) ^ 2 := by
    simpa [distLt, l2distSq] using h
  refine ⟨?_, ?_, ?_, ?_⟩ <;> intro hc <;>
    nlinarith [sq_nonneg (x - hx), sq_nonneg (y - hy)]

/-- A point passing the hover-distance test is not skipped by the anterior
view's slab. -/
theorem yzSkip_false_of_near (p : ℚ × ℚ) (n : Neuron)
    (h : distLt n.x p.1 n.y p.2 0.35 = true) :
    yzSkip (some p) n = false := by
  obtain ⟨h1, h2, -, -⟩ := near_within_slab n.x p.1 n.y p.2 h
  simp [yzSkip, h1, h2]

/-- A point passing the hover-distance test and the primary-bounds test is not
skipped by the dorsal view. -/
theorem xzSkip_false_of_near (p : ℚ × ℚ) (xb : ℚ × ℚ) (n : Neuron)
    (h : distLt n.x p.1 n.y p.2 0.35 = true)
    (hx : ¬ (n.x < xb.1 ∨ n.x > xb.2)) :
    xzSkip (some p) xb n = false := by
  obtain ⟨-, -, h3, h4⟩ := near_within_slab n.x p.1 n.y p.2 h
  push_neg at hx
  simp [xzSkip, h3, h4, not_lt.mpr hx.1, not_lt.mpr (not_lt.mp (not_lt.mpr hx.2))]

/-- The anterior per-neuron drawing for a highlight candidate: marker, then
reference line, outline, and label. -/
theorem yzDrawNeuron_near (isDark : Bool) (p : ℚ × ℚ) (rad : ℚ) (n : Neuron)
    (h : distLt n.x p.1 n.y p.2 0.35 = true) :
    yzDrawNeuron isDark (some p) rad n =
      [DrawCmd.marker (n.z, n.y) (markerColor isDark n) rad,
       DrawCmd.vline n.z,
       DrawCmd.outline (n.z, n.y) (rad + 2),
       DrawCmd.label (n.z + rad / 1.5, n.y + rad / 1.5) n.name] := by
  have hnear : hoverNear (some p) n = true := h
  simp [yzDrawNeuron, yzSkip_false_of_near p n h, hnear]

/-- The dorsal per-neuron drawing for a highlight candidate within the
primary bounds: marker, then reference line, outline, and label. -/
theorem xzDrawNeuron_near (isDark : Bool) (p : ℚ × ℚ) (xb : ℚ × ℚ) (rad : ℚ)
    (n : Neuron) (h : distLt n.x p.1 n.y p.2 0.35 = true)
    (hx : ¬ (n.x < xb.1 ∨ n.x > xb.2)) :
    xzDrawNeuron isDark (some p) xb rad n =
      [DrawCmd.marker (n.x, -n.z) (markerColor isDark n) rad,
       DrawCmd.hline (-n.z),
       DrawCmd.outline (n.x, -n.z) (rad + 2),
       DrawCmd.label (n.x + rad / 1.5, -n.z + rad / 1.5) n.name] := by
  have hnear : hoverNear (some p) n = true := h
  simp [xzDrawNeuron, xzSkip_false_of_near p xb n h hx, hnear]

/-- Any command of a neuron's per-neuron drawing appears in the anterior
view's output. -/
theorem mem_yzView_of_mem_draw (isDark : Bool) (hover : Option (ℚ × ℚ))
    (sp : ℚ) (data : List Neuron) (n : Neuron) (hn : n ∈ data) (cmd : DrawCmd)
    (hc : cmd ∈ yzDrawNeuron isDark hover (radiusOf sp) n) :
    cmd ∈ yzView isDark hover sp data := by
  simp only [yzView, List.mem_append, List.mem_flatMap]
  exact Or.inr ⟨n, hn, hc⟩

/-- Any command of a neuron's per-neuron drawing appears in the dorsal view's
output. -/
theorem mem_xzView_of_mem_draw (isDark : Bool) (hover : Option (ℚ × ℚ))
    (xb : ℚ × ℚ) (sp : ℚ) (data : List Neuron) (n : Neuron) (hn : n ∈ data)
    (cmd : DrawCmd) (hc : cmd ∈ xzDrawNeuron isDark hover xb (radiusOf sp) n) :
    cmd ∈ xzView isDark hover xb sp data := by
  simp only [xzView, List.mem_append, List.mem_flatMap]
  exact Or.inr ⟨n, hn, hc⟩

/-- C5: with hover present, every drawn point within Euclidean distance 0.35
of the hover position (on the first two components) receives, in each
auxiliary view, a perpendicular reference line through its projected
position, an unfilled outline of radius `radius + 2`, and a name label; this
holds for every such point, with no uniqueness restriction.  (In the dorsal
view "drawn" additionally requires the point's `x` to lie within the primary
view's horizontal bounds; in the anterior view the distance test alone
already implies the point is drawn.) -/
theorem near_points_highlighted (isDark : Bool) (p : ℚ × ℚ) (sp2 sp3 : ℚ)
    (xb : ℚ × ℚ) (data : List Neuron) (n : Neuron) (hn : n ∈ data)
    (hd : distLt n.x p.1 n.y p.2 0.35 = true) :
    (DrawCmd.vline n.z ∈ yzView isDark (some p) sp2 data
      ∧ DrawCmd.outline (n.z, n.y) (radiusOf sp2 + 2)
          ∈ yzView isDark (some p) sp2 data
      ∧ DrawCmd.label (n.z + radiusOf sp2 / 1.5, n.y + radiusOf sp2 / 1.5)
          n.name ∈ yzView isDark (some p) sp2 data)
    ∧ (¬ (n.x < xb.1 ∨ n.x > xb.2) →
        DrawCmd.hline (-n.z) ∈ xzView isDark (some p) xb sp3 data
        ∧ DrawCmd.outline (n.x, -n.z) (radiusOf sp3 + 2)
            ∈ xzView isDark (some p) xb sp3 data
        ∧ DrawCmd.label (n.x + radiusOf sp3 / 1.5, -n.z + radiusOf sp3 / 1.5)
            n.name ∈ xzView isDark (some p) xb sp3 data) := by
  constructor
  · refine ⟨?_, ?_, ?_⟩ <;>
      refine mem_yzView_of_mem_draw isDark (some p) sp2 data n hn _ ?_ <;>
      rw [yzDrawNeuron_near isDark p (radiusOf sp2) n hd] <;> simp
  · intro hx
    refine ⟨?_, ?_, ?_⟩ <;>
      refine mem_xzView_of_mem_draw isDark (some p) xb sp3 data n hn _ ?_ <;>
      rw [xzDrawNeuron_near isDark p xb (radiusOf sp3) n hd hx] <;> simp

/-- Witness for C5 at the spec's example: hover `(1, 2)` and the point at
`(1.05, 1.98, 0.5)` get the anterior reference line. -/
theorem near_points_highlighted_witness :
    DrawCmd.vline nHover.z ∈ yzView false (some (1, 2)) 30 [nHover] :=
  (near_points_highlighted false (1, 2) 30 30 (0, 10) [nHover] nHover
    (by simp) (by norm_num [distLt, l2distSq, nHover])).1.1

/-- C10: the anterior view's ±1.5 slab can never exclude a highlight
candidate: the 0.35 distance test implies `|x − hover.x| < 1.5`, the slab
test passes, and the point is drawn together with its highlight reference
line. -/
theorem anterior_slab_never_excludes (isDark : Bool) (p : ℚ × ℚ) (sp : ℚ)
    (data : List Neuron) (n : Neuron) (hn : n ∈ data)
    (hd : distLt n.x p.1 n.y p.2 0.35 = true) :
    |n.x - p.1| < 1.5
    ∧ yzSkip (some p) n = false
    ∧ DrawCmd.marker (n.z, n.y) (markerColor isDark n) (radiusOf sp)
        ∈ yzView isDark (some p) sp data
    ∧ DrawCmd.vline n.z ∈ yzView isDark (some p) sp data := by
  have hd2 : (n.x - p.1) ^ 2 + (n.y - p.2) ^ 2 < (0.35 : ℚ) ^ 2 := by
    simpa [distLt, l2distSq] using hd
  refine ⟨abs_lt.mpr ⟨by nlinarith [sq_nonneg (n.y - p.2)],
      by nlinarith [sq_nonneg (n.y - p.2)]⟩,
    yzSkip_false_of_near p n hd, ?_, ?_⟩ <;>
    refine mem_yzView_of_mem_draw isDark (some p) sp data n hn _ ?_ <;>
    rw [yzDrawNeuron_near isDark p (radiusOf sp) n hd] <;> simp

/-- Witness for C10 at a concrete point within 0.35 of the hover position
`(0, 0)`. -/
theorem anterior_slab_never_excludes_witness :
    |nNear.x - (0, (0 : ℚ)).1| < 1.5 :=
  (anterior_slab_never_excludes true ((0 : ℚ), (0 : ℚ)) 100 [nNear] nNear
    (by simp) (by norm_num [distLt, l2distSq, nNear])).1

/-- C6 counterexample: for a viewport lying entirely above the content
(`min = -2`, `max = -1`, `h = 1`, one row), the saturating float-to-`usize`
cast makes the code draw row 0, while the claimed range
`[max(0, floor(min/h)), min(total, ceil(max/h) + 1))` is empty. -/
theorem drawnRows_negative_viewport :
    0 ∈ drawnRows (-2) (-1) 1 1 ∧ (0 : ℤ) ∉ specRows (-2) (-1) 1 1 := by
  constructor
  · norm_num [drawnRows, Finset.mem_Ico]
  · norm_num [specRows, Finset.mem_Ico]
    decide

/-- C6 amended: for every viewport with `0 ≤ max` (in particular every
viewport that intersects the nonnegative content range) and row height
`h > 0`, the drawn row indices are exactly the claimed range
`[max(0, floor(min/h)), min(total, ceil(max/h) + 1))` — no other index is
drawn — and the reserved scroll height is `total * h`. -/
theorem drawnRows_match_spec (vmin vmax h : ℚ) (total : ℕ) (hh : 0 < h)
    (hmax : 0 ≤ vmax) :
    (∀ i : ℕ, i ∈ drawnRows vmin vmax h total ↔
      (i : ℤ) ∈ specRows vmin vmax h total)
    ∧ reservedHeight h total = h * total := by
  refine ⟨?_, rfl⟩
  intro i
  have hc : (0 : ℤ) ≤ ⌈vmax / h⌉ := Int.ceil_nonneg (div_nonneg hmax hh.le)
  simp only [drawnRows, specRows, Finset.mem_Ico]
  omega

/-- Witness for C6 amended at a concrete viewport. -/
theorem drawnRows_match_spec_witness :
    3 ∈ drawnRows 0 10 1 5 ↔ (3 : ℤ) ∈ specRows 0 10 1 5 :=
  (drawnRows_match_spec 0 10 1 5 (by norm_num) (by norm_num)).1 3

/-- A marker in the anterior per-neuron drawing always carries the radius the
drawing was invoked with. -/
theorem yzDraw_marker_radius (isDark : Bool) (hover : Option (ℚ × ℚ))
    (rad : ℚ) (n : Neuron) (q : ℚ × ℚ) (c : MarkerColor) (r : ℚ)
    (h : DrawCmd.marker q c r ∈ yzDrawNeuron isDark hover rad n) : r = rad := by
  unfold yzDrawNeuron at h
  split at h
  · simp at h
  · rcases List.mem_cons.mp h with h | h
    · injection h
    · split at h <;> simp at h

/-- A marker in the dorsal per-neuron drawing always carries the radius the
drawing was invoked with. -/
theorem xzDraw_marker_radius (isDark : Bool) (hover : Option (ℚ × ℚ))
    (xb : ℚ × ℚ) (rad : ℚ) (n : Neuron) (q : ℚ × ℚ) (c : MarkerColor) (r : ℚ)
    (h : DrawCmd.marker q c r ∈ xzDrawNeuron isDark hover xb rad n) :
    r = rad := by
  unfold xzDrawNeuron at h
  split at h
  · simp at h
  · rcases List.mem_cons.mp h with h | h
    · injection h
    · split at h <;> simp at h

/-- C9: in the primary view and in both auxiliary views every drawn marker's
radius equals `clamp(-0.01 * span + 6, 1, 6)` computed from that view's own
horizontal span, and the formula yields 6, 5 and 1 at spans 0, 100 and
1000. -/
theorem marker_radius_spec (isDark : Bool) (hover : Option (ℚ × ℚ))
    (xb : ℚ × ℚ) (sp1 sp2 sp3 : ℚ) (data : List Neuron) :
    (∀ (q : ℚ × ℚ) (c : MarkerColor) (r : ℚ),
      DrawCmd.marker q c r ∈ primaryView isDark sp1 data →
        r = clampQ (sp1 * (-0.01) + 6) 1 6)
    ∧ (∀ (q : ℚ × ℚ) (c : MarkerColor) (r : ℚ),
      DrawCmd.marker q c r ∈ yzView isDark hover sp2 data →
        r = clampQ (sp2 * (-0.01) + 6) 1 6)
    ∧ (∀ (q : ℚ × ℚ) (c : MarkerColor) (r : ℚ),
      DrawCmd.marker q c r ∈ xzView isDark hover xb sp3 data →
        r = clampQ (sp3 * (-0.01) + 6) 1 6)
    ∧ radiusOf 0 = 6 ∧ radiusOf 100 = 5 ∧ radiusOf 1000 = 1 := by
  refine ⟨?_, ?_, ?_, ?_, ?_, ?_⟩
  · intro q c r h
    simp only [primaryView, List.mem_map] at h
    obtain ⟨n, -, heq⟩ := h
    injection heq.symm
  · intro q c r h
    simp only [yzView, List.mem_append, List.mem_flatMap] at h
    rcases h with h | ⟨n, -, h⟩
    · cases hover <;> simp at h
    · exact yzDraw_marker_radius isDark hover (radiusOf sp2) n q c r h
  · intro q c r h
    simp only [xzView, List.mem_append, List.mem_flatMap] at h
    rcases h with h | ⟨n, -, h⟩
    · cases hover <;> simp at h
    · exact xzDraw_marker_radius isDark hover xb (radiusOf sp3) n q c r h
  · norm_num [radiusOf, clampQ]
  · norm_num [radiusOf, clampQ]
  · norm_num [radiusOf, clampQ]

/-- Witness for C9: the concrete radius values at spans 0, 100 and 1000. -/
theorem marker_radius_spec_witness :
    radiusOf 0 = 6 ∧ radiusOf 100 = 5 ∧ radiusOf 1000 = 1 :=
  (marker_radius_spec false none (0, 10) 0 0 0 []).2.2.2

/-- Characterization of the names appearing in the visible set. -/
theorem visibleSet_names_mem (store : List Neuron) (q : String)
    (side : WormSide) (s : String) :
    s ∈ (visibleSet store q side).map Neuron.name ↔
      ∃ n ∈ store, nameMatches q n.name = true ∧ sidePasses side n = true
        ∧ n.name = s := by
  simp only [visibleSet, List.mem_map, List.mem_mergeSort, List.mem_filter]
  constructor
  · rintro ⟨n, ⟨⟨hn, h1⟩, h2⟩, rfl⟩
    exact ⟨n, hn, h1, h2, rfl⟩
  · rintro ⟨n, hn, h1, h2, rfl⟩
    exact ⟨n, ⟨⟨hn, h1⟩, h2⟩, rfl⟩

/-- C7: with the boundary rule `z ≥ 0 → Left`, the hemisphere filter
partitions the visible set: Left and Right together give exactly the names of
Both, and Left and Right share no name (using that store names are unique,
as the store is keyed by name). -/
theorem hemisphere_partition (store : List Neuron) (q : String)
    (hnd : (store.map Neuron.name).Nodup) :
    ((visibleSet store q .Left).map Neuron.name).toFinset ∪
        ((visibleSet store q .Right).map Neuron.name).toFinset =
      ((visibleSet store q .Both).map Neuron.name).toFinset
    ∧ Disjoint ((visibleSet store q .Left).map Neuron.name).toFinset
        ((visibleSet store q .Right).map Neuron.name).toFinset := by
  constructor
  · ext s
    simp only [Finset.mem_union, List.mem_toFinset, visibleSet_names_mem]
    constructor
    · rintro (⟨n, hn, h1, h2, rfl⟩ | ⟨n, hn, h1, h2, rfl⟩) <;>
        exact ⟨n, hn, h1, rfl, rfl⟩
    · rintro ⟨n, hn, h1, -, rfl⟩
      rcases le_or_lt 0 n.z with hz | hz
      · exact Or.inl ⟨n, hn, h1, by simp [sidePasses, hz], rfl⟩
      · exact Or.inr ⟨n, hn, h1, by simp [sidePasses, hz], rfl⟩
  · rw [Finset.disjoint_left]
    intro s hsL hsR
    rw [List.mem_toFinset, visibleSet_names_mem] at hsL hsR
    obtain ⟨n1, hn1, -, hz1, rfl⟩ := hsL
    obtain ⟨n2, hn2, -, hz2, hname⟩ := hsR
    have heq : n2 = n1 := List.inj_on_of_nodup_map hnd hn2 hn1 hname
    subst heq
    simp only [sidePasses, decide_eq_true_eq] at hz1 hz2
    exact absurd hz1 (not_le.mpr hz2)

/-- Witness for C7 at the spec's two-point example store. -/
theorem hemisphere_partition_witness :
    ((visibleSet [nAVAL, nAVAR] "AVA" .Left).map Neuron.name).toFinset ∪
        ((visibleSet [nAVAL, nAVAR] "AVA" .Right).map Neuron.name).toFinset =
      ((visibleSet [nAVAL, nAVAR] "AVA" .Both).map Neuron.name).toFinset
    ∧ Disjoint ((visibleSet [nAVAL, nAVAR] "AVA" .Left).map Neuron.name).toFinset
        ((visibleSet [nAVAL, nAVAR] "AVA" .Right).map Neuron.name).toFinset :=
  hemisphere_partition [nAVAL, nAVAR] "AVA" (by simp [nAVAL, nAVAR])

/-- The visible set is pairwise sorted by name (ascending), for every store
and filter state. -/
theorem visibleSet_sorted (store : List Neuron) (q : String) (side : WormSide) :
    (visibleSet store q side).Pairwise fun a b => a.name ≤ b.name := by
  have h := @List.sorted_mergeSort Neuron
    (fun a b => decide (a.name ≤ b.name))
    (fun a b c h1 h2 => by
      simp only [decide_eq_true_eq] at h1 h2 ⊢
      exact le_trans h1 h2)
    (fun a b => by
      simp only [Bool.or_eq_true, decide_eq_true_eq]
      exact le_total a.name b.name)
    ((store.filter fun n => nameMatches q n.name).filter
      fun n => sidePasses side n)
  exact h.imp fun hab => by simpa using hab

/-- Two lists of neurons that are permutations of each other, both sorted by
name, with no duplicate names, are equal. -/
theorem sortedKeys_nodup_eq {l1 l2 : List Neuron} (hp : l1.Perm l2)
    (hs1 : l1.Pairwise fun a b => a.name ≤ b.name)
    (hs2 : l2.Pairwise fun a b => a.name ≤ b.name)
    (hnd : (l1.map Neuron.name).Nodup) : l1 = l2 := by
  have hne1 : l1.Pairwise fun a b => a.name ≠ b.name := by
    rw [List.Nodup, List.pairwise_map] at hnd
    exact hnd
  have hne2 : l2.Pairwise fun a b => a.name ≠ b.name := by
    have h2 : (l2.map Neuron.name).Nodup := ((hp.map Neuron.name).nodup_iff).mp hnd
    rw [List.Nodup, List.pairwise_map] at h2
    exact h2
  have hlt1 : l1.Pairwise fun a b => a.name < b.name :=
    (hs1.and hne1).imp fun h => lt_of_le_of_ne h.1 h.2
  have hlt2 : l2.Pairwise fun a b => a.name < b.name :=
    (hs2.and hne2).imp fun h => lt_of_le_of_ne h.1 h.2
  exact @List.eq_of_perm_of_sorted Neuron (fun a b => a.name < b.name)
    ⟨fun a b h1 h2 => absurd h1 (lt_asymm h2)⟩ l1 l2 hp hlt1 hlt2

/-- C8: the visible set is always sorted ascending by name, and (since store
names are unique) the result does not depend on the iteration order of the
unordered store map: any permutation of the store yields the identical
visible set, so per-frame recomputation is deterministic and mutation-free. -/
theorem visibleSet_sorted_deterministic (s1 s2 : List Neuron) (q : String)
    (side : WormSide) (hp : s1.Perm s2)
    (hnd : (s1.map Neuron.name).Nodup) :
    ((visibleSet s1 q side).Pairwise fun a b => a.name ≤ b.name)
    ∧ visibleSet s1 q side = visibleSet s2 q side := by
  refine ⟨visibleSet_sorted s1 q side, ?_⟩
  have hpf : ((s1.filter fun n => nameMatches q n.name).filter
        fun n => sidePasses side n).Perm
      ((s2.filter fun n => nameMatches q n.name).filter
        fun n => sidePasses side n) :=
    (hp.filter _).filter _
  have hperm : (visibleSet s1 q side).Perm (visibleSet s2 q side) :=
    ((List.mergeSort_perm _ _).trans hpf).trans (List.mergeSort_perm _ _).symm
  have hsub : ((s1.filter fun n => nameMatches q n.name).filter
        fun n => sidePasses side n).Sublist s1 :=
    (List.filter_sublist _).trans (List.filter_sublist _)
  have hnd1 : (((s1.filter fun n => nameMatches q n.name).filter
        fun n => sidePasses side n).map Neuron.name).Nodup :=
    (hsub.map Neuron.name).nodup hnd
  have hnd2 : ((visibleSet s1 q side).map Neuron.name).Nodup :=
    (((List.mergeSort_perm _ _).map Neuron.name).nodup_iff).mpr hnd1
  exact sortedKeys_nodup_eq hperm (visibleSet_sorted s1 q side)
    (visibleSet_sorted s2 q side) hnd2

/-- Witness for C8: two orderings of the example store yield the identical
visible set. -/
theorem visibleSet_sorted_deterministic_witness :
    visibleSet [nAVAR, nAVAL] "AVA" .Both = visibleSet [nAVAL, nAVAR] "AVA" .Both :=
  (visibleSet_sorted_deterministic [nAVAR, nAVAL] [nAVAL, nAVAR] "AVA" .Both
    (List.Perm.swap nAVAL nAVAR []) (by simp [nAVAL, nAVAR])).2
